import Mathlib

/-!
Verification of the multilinear-extension (MLE) algebra and the batch
polynomial-commitment adapter of the `binius` repository.

Shallow embedding conventions.

* Fields.  The source is generic over a packed base field `P` (with scalar
  field `F = P::Scalar`) and an extension field `FE` of `F`.  All claims in
  scope are ring identities preserved by the embedding `F ↪ FE`, so we model
  both fields by a single commutative ring `F` and the lift `F → FE` by the
  identity.
* Packed layout.  A `Vec<P>` of packed cells of width `W = 2^logW` is modelled
  by its scalar view: the flat `List F` of the `len * W` scalars in
  little-endian hypercube order (`get_packed_slice`/`set_packed_slice` become
  plain list indexing).  The width enters only through the shape checks, so
  functions whose Rust version depends on `P::LOG_WIDTH` or `PE::LOG_WIDTH`
  take the corresponding `logW`/`logWPE` as an explicit argument.
* Machine integers.  `usize` is 64 bits; `2usize.checked_pow k` overflows
  exactly when `2 ^ k > usizeMax`.  Rust's `log2(v) = 63 - leading_zeros(v)`
  agrees with `Nat.log2` on `1 ≤ v < 2^64`, the only values it is applied to.
* Fallible code returns `Except`.  Rust panics (slice index out of bounds,
  `copy_from_slice` length mismatch, subtraction underflow) are not modelled:
  on the panic-free inputs the claims quantify over, the models below agree
  with the source pointwise.
-/

namespace Binius

/-- Error enum of `src/src/polynomial/error.rs` as used by
`multilinear_extension.rs`; `ArgumentRangeError` carries the argument name and
the `lo..hi` bounds of the reported `Range<usize>`. -/
inductive PolynomialError where
  | PowerOfTwoLengthRequired
  | IncorrectQuerySize (expected : Nat)
  | IncorrectOutputPolynomialSize (expected : Nat)
  | ArgumentRangeError (arg : String) (lo hi : Nat)
  | HypercubeIndexOutOfRange (index : Nat)
  | TooManyVariables
  deriving Repr, DecidableEq

/-- Error enum of `src/crates/core/src/poly_commit/batch_pcs.rs`; `ε` is the
opaque error type of the inner PCS wrapped by `InnerPCS`. -/
inductive BatchError (ε : Type) where
  | NumPolys
  | NumVars
  | NumVarsInnerOuter (n_inner n_vars log_num_polys : Nat)
  | InnerPCS (err : ε)
  | Polynomial (e : PolynomialError)
  deriving Repr, DecidableEq

/-- `MultilinearExtension` of `multilinear_extension.rs`: the number of
variables `mu` and the scalar view of the packed evaluation buffer (the
`Cow<[P]>` of owned/borrowed cells; ownership is irrelevant to the values). -/
structure MultilinearExtension (F : Type) where
  mu : Nat
  evals : List F
  deriving Repr, DecidableEq

/-- Decidable equality on `Except`, used to evaluate the models at concrete
inputs. -/
instance {ε α : Type} [DecidableEq ε] [DecidableEq α] :
    DecidableEq (Except ε α) := fun x y =>
  match x, y with
  | .ok a, .ok b => decidable_of_iff (a = b) (by simp)
  | .error a, .error b => decidable_of_iff (a = b) (by simp)
  | .ok _, .error _ => isFalse (by simp)
  | .error _, .ok _ => isFalse (by simp)

/-- `usize::MAX` on the 64-bit platform. -/
def usizeMax : Nat := 2 ^ 64 - 1

/-- Fuelled floor base-2 logarithm; with fuel `≥ n` it equals `Nat.log2 n`
(`log2_eq_nat_log2` below), hence Rust's `log2(v) = 63 - leading_zeros(v)` and
`p3_util::log2_strict_usize` on the values they receive.  The fuel makes it
reduce inside the kernel, which `Nat.log2`'s well-founded recursion cannot. -/
def log2_aux : Nat → Nat → Nat
  | 0, _ => 0
  | fuel + 1, n => if n ≥ 2 then log2_aux fuel (n / 2) + 1 else 0

/-- `log2` of `multilinear_extension.rs` (lines 454–456) and
`log2_strict_usize` of `batch_pcs.rs`. -/
def log2 (n : Nat) : Nat := log2_aux n n

/-- `usize::is_power_of_two`: true exactly on `2^k`, false on `0`. -/
def is_power_of_two (n : Nat) : Bool := 2 ^ log2 n == n

variable {F : Type} [CommRing F]

/-- One pass of the loop in `expand_query` (lines 403–411): with the active
prefix `acc` (the expansion of the already-processed query entries), the pass
`result.copy_within(0..mid, mid)` followed by
`prod = result[j] * v; result[j] -= prod; result[mid+j] = prod` maps the
prefix to `acc.map (a - a*v) ++ acc.map (a*v)`. -/
def expand_query_step (acc : List F) (v : F) : List F :=
  acc.map (fun a => a - a * v) ++ acc.map (fun a => a * v)

/-- The value computed by `expand_query`'s loop: starting from the length-1
active prefix `[1]` (`result[0] = F::ONE`), each query entry doubles the
prefix; after the last pass the prefix fills the whole preallocated
`vec![F::ZERO; 2^k]`. -/
def expand_query_core (query : List F) : List F :=
  query.foldl expand_query_step [1]

/-- `expand_query` (lines 392–414).  The guards `query.len().try_into::<u32>()`
and `2usize.checked_pow(query_len)` fail together exactly when `2^k` exceeds
`usize::MAX` (a length above `u32::MAX` forces `2^k > usizeMax` a fortiori). -/
def expand_query (query : List F) : Except PolynomialError (List F) :=
  if 2 ^ query.length ≤ usizeMax then .ok (expand_query_core query)
  else .error .TooManyVariables

/-- `eval_basis` (lines 437–443): the Lagrange basis factor for each `(j, v)`
of `query.iter().enumerate()` is `if i & (1 << j) == 0 { 1 - v } else { v }`. -/
def eval_basis (q : List F) (i : Nat) : F :=
  ∏ j ∈ Finset.range q.length,
    (if i &&& (1 <<< j) = 0 then 1 - q.getD j 0 else q.getD j 0)

/-- `expand_query_naive` (lines 422–433): same overflow guards as
`expand_query`, body `(0..size).map(|i| eval_basis(query, i))`. -/
def expand_query_naive (query : List F) : Except PolynomialError (List F) :=
  if 2 ^ query.length ≤ usizeMax then
    .ok ((List.range (2 ^ query.length)).map (eval_basis query))
  else .error .TooManyVariables

/-- `inner_product_unchecked` (lines 446–452): `a.zip(b).map(a_i * b_i).sum()`
(zip truncates at the shorter list, as in the source). -/
def inner_product_unchecked (a b : List F) : F :=
  ((a.zip b).map fun p => p.1 * p.2).sum

namespace MultilinearExtension

/-- `from_values` (lines 41–50) and `from_values_slice` (lines 54–63, identical
checks): `v` is the scalar view of the packed vector, whose packed length is
`v.length / 2^logW`; `mu := log2(v.len() * P::WIDTH)`. -/
def from_values (logW : Nat) (v : List F) :
    Except PolynomialError (MultilinearExtension F) :=
  if is_power_of_two (v.length / 2 ^ logW) then
    .ok ⟨log2 (v.length / 2 ^ logW * 2 ^ logW), v⟩
  else .error .PowerOfTwoLengthRequired

/-- `zeros` (lines 26–39): width check, then `vec![P::default(); 1 << (n_vars -
log2(W))]`, whose scalar view is `2^(n_vars-logW) * 2^logW` zeros. -/
def zeros (logW : Nat) (n_vars : Nat) :
    Except PolynomialError (MultilinearExtension F) :=
  if n_vars < logW then .error (.ArgumentRangeError "n_vars" logW 32)
  else .ok ⟨n_vars, List.replicate (2 ^ (n_vars - logW) * 2 ^ logW) 0⟩

/-- `evaluate` (lines 97–108). -/
def evaluate (p : MultilinearExtension F) (q : List F) :
    Except PolynomialError F :=
  if p.mu ≠ q.length then .error (.IncorrectQuerySize p.mu)
  else do
    let basis_eval ← expand_query q
    .ok (inner_product_unchecked basis_eval p.evals)

/-- `batch_evaluate` (lines 110–129): the expansion of `q` is computed once;
each yielded item first propagates an expansion error, then checks its own
polynomial's variable count. -/
def batch_evaluate (polys : List (MultilinearExtension F)) (q : List F) :
    List (Except PolynomialError F) :=
  let n_vars := q.length
  let basis_eval := expand_query q
  polys.map fun poly =>
    match basis_eval with
    | .error e => .error e
    | .ok basis =>
      if poly.mu ≠ n_vars then .error (.IncorrectQuerySize poly.mu)
      else .ok (inner_product_unchecked basis poly.evals)

end MultilinearExtension

/-- `slice::chunks_exact(k)`: successive chunks of exactly `k` elements, the
remainder dropped.  (Rust panics on `k = 0`; the guard below returns `[]`
there, a case never reached by the source.)  Chunking the packed cell list by
`2^(n-logW)` cells equals chunking its scalar view by `2^n` scalars, since
chunk boundaries fall on cell boundaries. -/
def chunks_exact (k : Nat) (l : List F) : List (List F) :=
  if _h : 0 < k ∧ k ≤ l.length then
    l.take k :: chunks_exact k (l.drop k)
  else []
termination_by l.length
decreasing_by
  simp only [List.length_drop]
  omega

namespace MultilinearExtension

/-- `iter_subpolynomials_high` (lines 172–192): range check against
`log2(P::WIDTH)..mu`, then `chunks_exact(1 << (n_vars - logW))` over the packed
cells, i.e. `2^n_vars` scalars per chunk. -/
def iter_subpolynomials_high (logW : Nat) (p : MultilinearExtension F)
    (n_vars : Nat) : Except PolynomialError (List (MultilinearExtension F)) :=
  if n_vars < logW ∨ n_vars > p.mu then
    .error (.ArgumentRangeError "n_vars" logW p.mu)
  else .ok ((chunks_exact (2 ^ n_vars) p.evals).map fun c => ⟨n_vars, c⟩)

/-- `evaluate_partial_high` (lines 140–170).  `logW` is `P::LOG_WIDTH` of the
source polynomial, `logWPE` is `PE::LOG_WIDTH` of the result.  The accumulation
`value += basis_eval * subpoly_eval_i` over each subpolynomial becomes a
`zipWith` fold over the zeroed result buffer
`vec![PE::default(); (1 << (mu - k)) / PE::WIDTH]`. -/
def evaluate_partial_high (logW logWPE : Nat) (p : MultilinearExtension F)
    (q : List F) : Except PolynomialError (MultilinearExtension F) :=
  if p.mu < q.length then .error (.IncorrectQuerySize p.mu)
  else if 2 ^ (p.mu - q.length) < 2 ^ logWPE then
    .error (.IncorrectQuerySize p.mu)
  else do
    let basis_eval ← expand_query q
    let init : List F :=
      List.replicate (2 ^ (p.mu - q.length) / 2 ^ logWPE * 2 ^ logWPE) 0
    let subpolys ← iter_subpolynomials_high logW p (p.mu - q.length)
    from_values logWPE
      ((subpolys.zip basis_eval).foldl
        (fun acc sb => List.zipWith (fun r s => r + sb.2 * s) acc sb.1.evals)
        init)

/-- `evaluate_partial_low_into` (lines 228–261).  The write loop runs over the
`PE` cells of `out` and, within each cell `i`, over lanes `j < P::WIDTH`
(`(0..P::WIDTH).for_each` — the source uses `P`'s width here), setting the
lane to `sum_k basis[k] * evals[(i * P::WIDTH + j) << q.len() | k]`.  In the
scalar view of `out`, position `s` (cell `s / 2^logWPE`, lane `s % 2^logWPE`)
is written iff its lane index is below `2^logW`; out-of-range reads (a panic in
the source, unreachable on well-formed inputs) are modelled as `0`. -/
def evaluate_partial_low_into (logW logWPE : Nat) (p : MultilinearExtension F)
    (q : List F) (out : MultilinearExtension F) :
    Except PolynomialError (MultilinearExtension F) :=
  if p.mu < q.length then .error (.IncorrectQuerySize p.mu)
  else if out.mu ≠ p.mu - q.length then
    .error (.IncorrectOutputPolynomialSize (p.mu - q.length))
  else do
    let basis_evals ← expand_query q
    .ok ⟨out.mu, (List.range out.evals.length).map fun s =>
      if s % 2 ^ logWPE < 2 ^ logW then
        ((basis_evals.zip (List.range basis_evals.length)).map fun bk =>
          bk.1 * p.evals.getD
            (((s / 2 ^ logWPE * 2 ^ logW + s % 2 ^ logWPE) <<< q.length)
              ||| bk.2) 0).sum
      else out.evals.getD s 0⟩

/-- `evaluate_partial_low` (lines 203–217): query-size check, then
`zeros(mu - k)` for the `PE`-packed output, then the in-place variant (which
here returns the updated output). -/
def evaluate_partial_low (logW logWPE : Nat) (p : MultilinearExtension F)
    (q : List F) : Except PolynomialError (MultilinearExtension F) :=
  if p.mu < q.length then .error (.IncorrectQuerySize p.mu)
  else do
    let result ← zeros logWPE (p.mu - q.length)
    evaluate_partial_low_into logW logWPE p q result

end MultilinearExtension

/-- `dst[offset..offset + src.len()].copy_from_slice(src)` on the scalar view
(the length-mismatch panic is not modelled; on the inputs the claims use, the
slot always fits). -/
def list_copy (dst : List F) (offset : Nat) (src : List F) : List F :=
  dst.take offset ++ src ++ dst.drop (offset + src.length)

/-- The buffer written by `merge_polynomials`'s copy loop, in scalar view:
`n_vars` is `polys[0].n_vars()` and `m = log2_strict_usize(polys.len())`; the
scalar slot of polynomial `u` starts at `u * poly_packed_size * 2^logW` inside
the zeroed allocation `zeroed_vec(poly_packed_size << m)`. -/
def merged_evals (logW n_vars m : Nat) (polys : List (MultilinearExtension F)) :
    List F :=
  (polys.zip (List.range polys.length)).foldl
    (fun acc pu => list_copy acc (pu.2 * (2 ^ (n_vars - logW) * 2 ^ logW)) pu.1.evals)
    (List.replicate ((2 ^ (n_vars - logW) <<< m) * 2 ^ logW) 0)

/-- `merge_polynomials` of `batch_pcs.rs` (lines 46–74).  `logW` is
`P::LOG_WIDTH`; shape checks, then the copy loop, then the `?`-converted
`from_values` (its error surfacing as `Error::Polynomial`). -/
def merge_polynomials {ε : Type} (logW : Nat)
    (polys : List (MultilinearExtension F)) :
    Except (BatchError ε) (MultilinearExtension F) :=
  if polys.length = 0 ∨ is_power_of_two polys.length = false then
    .error .NumPolys
  else if polys.any fun poly => poly.mu ≠ (polys.headD ⟨0, []⟩).mu then
    .error .NumVars
  else
    match MultilinearExtension.from_values logW
      (merged_evals logW (polys.headD ⟨0, []⟩).mu (log2 polys.length) polys) with
    | .ok t => .ok t
    | .error e => .error (.Polynomial e)

/-- Modelled from the spec: the challenger (Fiat–Shamir transcript) is an
external collaborator whose implementation is not under `src/`; per §3 it is an
abstract state supporting `sample`, and `sample_vec(k)` draws `k` samples in
sequence, threading the state. -/
def sample_vec {σ : Type} (sample : σ → F × σ) : σ → Nat → List F × σ
  | s, 0 => ([], s)
  | s, n + 1 =>
    let x := sample s
    let rest := sample_vec sample x.2 n
    (x.1 :: rest.1, rest.2)

/-- The inner polynomial commitment scheme, abstract per §6 of the spec: only
its variable count and the prove/verify entry points are consumed by the
adapter operations the claims cover.  Challenger mutation is modelled by
explicit state passing; the opaque `Backend` argument is threaded by the
adapter without inspection and is omitted. -/
structure InnerPCS (F σ Commitment Committed Pf ε : Type) where
  n_vars : Nat
  prove_evaluation : σ → Committed → List (MultilinearExtension F) → List F →
    σ × Except ε Pf
  verify_evaluation : σ → Commitment → List F → Pf → List F →
    σ × Except ε Unit

/-- The `Proof` wrapper of `batch_pcs.rs` (line 260). -/
structure BatchProof (Pf : Type) where
  inner : Pf

/-- `BatchPCS` (lines 104–115).  `logW` records `P::LOG_WIDTH` of the packed
coefficient type parameter `P`, a type-level constant in the source. -/
structure BatchPCS (F σ Commitment Committed Pf ε : Type) where
  inner : InnerPCS F σ Commitment Committed Pf ε
  n_vars : Nat
  log_num_polys : Nat
  logW : Nat

namespace BatchPCS

variable {σ Commitment Committed Pf ε : Type}

/-- `BatchPCS::new` (lines 124–139). -/
def new (inner : InnerPCS F σ Commitment Committed Pf ε)
    (n_vars log_num_polys logW : Nat) :
    Except (BatchError ε) (BatchPCS F σ Commitment Committed Pf ε) :=
  if inner.n_vars ≠ n_vars + log_num_polys then
    .error (.NumVarsInnerOuter inner.n_vars n_vars log_num_polys)
  else .ok ⟨inner, n_vars, log_num_polys, logW⟩

/-- `prove_evaluation` (lines 178–213): query-size check, `sample_vec(m)`,
augmented query `query ++ challenges`, merge, delegate to the inner PCS with
the merged polynomial, wrapping inner errors as `InnerPCS`. -/
def prove_evaluation (pcs : BatchPCS F σ Commitment Committed Pf ε)
    (sample : σ → F × σ) (s : σ) (committed : Committed)
    (polys : List (MultilinearExtension F)) (query : List F) :
    σ × Except (BatchError ε) (BatchProof Pf) :=
  if query.length ≠ pcs.n_vars then
    (s, .error (.Polynomial (.IncorrectQuerySize pcs.n_vars)))
  else
    let cs := sample_vec sample s pcs.log_num_polys
    let new_query := query ++ cs.1
    match merge_polynomials (ε := ε) pcs.logW polys with
    | .error e => (cs.2, .error e)
    | .ok merged =>
      let r := pcs.inner.prove_evaluation cs.2 committed [merged] new_query
      (r.1, (r.2.mapError BatchError.InnerPCS).map BatchProof.mk)

/-- `verify_evaluation` (lines 215–250): draw the mixing challenges, build the
multilinear `interpolate_from_evaluations` over `values` (via
`from_values_slice`, `FE` being its own packed field of width 1, so `logW = 0`),
evaluate it at the challenges, and delegate to the inner PCS on the augmented
query with the single claimed value `[mixed]`.

Modelled from the spec: `MultilinearQuery::with_full_query` and the
query-struct-based `evaluate` of the workspace MLE live outside `src/`; per
§4.3 `mixed := S(r')` is computed "by evaluating S at r' using the
tensor-expansion kernel", which is exactly `evaluate` of
`multilinear_extension.rs` (expansion + inner product), used here. -/
def verify_evaluation (pcs : BatchPCS F σ Commitment Committed Pf ε)
    (sample : σ → F × σ) (s : σ) (commitment : Commitment) (query : List F)
    (proof : BatchProof Pf) (values : List F) :
    σ × Except (BatchError ε) Unit :=
  let mc := sample_vec sample s pcs.log_num_polys
  match MultilinearExtension.from_values 0 values with
  | .error e => (mc.2, .error (.Polynomial e))
  | .ok interpolate_from_evaluations =>
    match interpolate_from_evaluations.evaluate mc.1 with
    | .error e => (mc.2, .error (.Polynomial e))
    | .ok mixed_evaluation =>
      let new_query := query ++ mc.1
      let r := pcs.inner.verify_evaluation mc.2 commitment new_query
        proof.inner [mixed_evaluation]
      (r.1, r.2.mapError BatchError.InnerPCS)

end BatchPCS

/-!  Specification-side helpers: the pointwise tensor/equality products the
claims are stated with, and the semantic value of a full evaluation. -/

/-- Little-endian bit product `∏_j (bit_j(i) ? q_j : 1 - q_j)`, phrased
recursively (bit 0 first); the proof-friendly counterpart of `eval_basis`. -/
def basis_prod : List F → Nat → F
  | [], _ => 1
  | v :: q, i => (if i % 2 = 1 then v else 1 - v) * basis_prod q (i / 2)

/-- The claims' equality polynomial
`eq(r, u) = ∏_j (u_j * r_j + (1 - u_j) * (1 - r_j))` with the bits of `u`
embedded as `0`/`1`. -/
def eq_formula (r : List F) (u : Nat) : F :=
  ∏ j ∈ Finset.range r.length,
    ((if u.testBit j then (1 : F) else 0) * r.getD j 0 +
      (1 - if u.testBit j then (1 : F) else 0) * (1 - r.getD j 0))

/-- The claims' `binary(i)`: the length-`μ` little-endian bit vector of `i`,
each bit embedded in the field as `0`/`1`. -/
def binary (μ i : Nat) : List F :=
  (List.range μ).map fun j => if i.testBit j then 1 else 0

/-- Semantic value of a full evaluation: the inner product of the tensor
expansion of `q` with the hypercube evaluations. -/
def evalSum (p : MultilinearExtension F) (q : List F) : F :=
  ∑ i ∈ Finset.range (2 ^ q.length), basis_prod q i * p.evals.getD i 0

/-- The split-evaluation chain of claim C4: for each count `k` in `ks`, assign
the highest `k` remaining variables via `evaluate_partial_high` (with `PE = P`,
as in the source's split-evaluation test), then fully `evaluate` what is
left. -/
def apply_splits_high (logW : Nat) :
    MultilinearExtension F → List F → List Nat → Except PolynomialError F
  | p, q, [] => p.evaluate q
  | p, q, k :: ks => do
    let p' ← p.evaluate_partial_high logW logW (q.drop (q.length - k))
    apply_splits_high logW p' (q.take (q.length - k)) ks

/-! ### Arithmetic helpers -/

lemma pow_le_usizeMax_iff (k : Nat) : 2 ^ k ≤ usizeMax ↔ k ≤ 63 := by
  have h : 2 ^ k ≤ usizeMax ↔ 2 ^ k < 2 ^ 64 := by
    unfold usizeMax
    omega
  rw [h, Nat.pow_lt_pow_iff_right (by norm_num)]
  omega

lemma log2_aux_eq (fuel : Nat) : ∀ n : Nat, n ≤ fuel → log2_aux fuel n = Nat.log2 n := by
  induction fuel with
  | zero =>
    intro n hn
    rw [log2_aux, Nat.log2]
    rw [Nat.le_zero.mp hn]
    rfl
  | succ fuel ih =>
    intro n hn
    rw [log2_aux, Nat.log2]
    by_cases h : n ≥ 2
    · rw [if_pos h, if_pos h, ih (n / 2) (by omega)]
    · rw [if_neg h, if_neg h]

lemma log2_eq_nat_log2 (n : Nat) : log2 n = Nat.log2 n :=
  log2_aux_eq n n le_rfl

lemma log2_two_pow (k : Nat) : log2 (2 ^ k) = k := by
  rw [log2_eq_nat_log2, Nat.log2_two_pow]

lemma is_power_of_two_two_pow (k : Nat) : is_power_of_two (2 ^ k) = true := by
  simp [is_power_of_two, log2_two_pow]

lemma is_power_of_two_spec {n : Nat} (h : is_power_of_two n = true) :
    n = 2 ^ log2 n := by
  unfold is_power_of_two at h
  exact (eq_of_beq h).symm

lemma and_one_shiftLeft_eq_zero_iff (i j : Nat) :
    (i &&& (1 <<< j) = 0) ↔ i.testBit j = false := by
  rw [Nat.one_shiftLeft, Nat.and_two_pow]
  cases h : i.testBit j <;> simp [h]

/-! ### Pointwise basis products -/

lemma basis_prod_nil (i : Nat) : basis_prod ([] : List F) i = 1 := rfl

lemma basis_prod_cons (v : F) (q : List F) (i : Nat) :
    basis_prod (v :: q) i = (if i % 2 = 1 then v else 1 - v) * basis_prod q (i / 2) := rfl

lemma basis_prod_mod (q : List F) : ∀ i, basis_prod q (i % 2 ^ q.length) = basis_prod q i := by
  induction q with
  | nil => intro i; rfl
  | cons v q ih =>
    intro i
    have h2 : (2 : Nat) ∣ 2 ^ (q.length + 1) := dvd_pow_self 2 (Nat.succ_ne_zero _)
    have hmod : i % 2 ^ (q.length + 1) % 2 = i % 2 := Nat.mod_mod_of_dvd i h2
    have hdiv : i % 2 ^ (q.length + 1) / 2 = i / 2 % 2 ^ q.length := by
      rw [pow_succ, mul_comm]
      exact Nat.mod_mul_right_div_self i 2 (2 ^ q.length)
    rw [List.length_cons, basis_prod_cons, basis_prod_cons, hmod, hdiv, ih]

lemma basis_prod_append (a b : List F) :
    ∀ i, basis_prod (a ++ b) i = basis_prod a i * basis_prod b (i / 2 ^ a.length) := by
  induction a with
  | nil => intro i; simp [basis_prod_cons, basis_prod_nil]
  | cons v a ih =>
    intro i
    have hdd : i / 2 / 2 ^ a.length = i / 2 ^ (a.length + 1) := by
      rw [Nat.div_div_eq_div_mul, pow_succ, mul_comm]
    rw [List.cons_append, basis_prod_cons, ih, basis_prod_cons, List.length_cons,
      ← hdd, mul_assoc]

lemma basis_prod_mul_add (a b : List F) (u v : Nat) (hv : v < 2 ^ a.length) :
    basis_prod (a ++ b) (u * 2 ^ a.length + v) = basis_prod a v * basis_prod b u := by
  have hdiv : (u * 2 ^ a.length + v) / 2 ^ a.length = u := by
    rw [Nat.add_comm, Nat.add_mul_div_right _ _ (Nat.pos_pow_of_pos _ (by norm_num)),
      Nat.div_eq_of_lt hv, Nat.zero_add]
  have hmod : (u * 2 ^ a.length + v) % 2 ^ a.length = v := by
    rw [mul_comm, Nat.mul_add_mod, Nat.mod_eq_of_lt hv]
  rw [basis_prod_append, hdiv, ← basis_prod_mod a (u * 2 ^ a.length + v), hmod]

lemma testBit_prod_eq_basis_prod (q : List F) :
    ∀ i, (∏ j ∈ Finset.range q.length,
      (if i.testBit j then q.getD j 0 else 1 - q.getD j 0)) = basis_prod q i := by
  induction q with
  | nil => intro i; simp [basis_prod]
  | cons v q ih =>
    intro i
    rw [List.length_cons, Finset.prod_range_succ']
    have h0 : (if i.testBit 0 then (v :: q).getD 0 0 else 1 - (v :: q).getD 0 0) =
        (if i % 2 = 1 then v else 1 - v) := by
      rcases Nat.mod_two_eq_zero_or_one i with h | h <;>
        simp [Nat.testBit_zero, h]
    have hs : ∀ j, (if i.testBit (j + 1) then (v :: q).getD (j + 1) 0
        else 1 - (v :: q).getD (j + 1) 0) =
        (if (i / 2).testBit j then q.getD j 0 else 1 - q.getD j 0) := by
      intro j
      rw [Nat.testBit_succ]
      rfl
    simp only [hs, ih (i / 2), h0, basis_prod, mul_comm]

lemma eval_basis_eq_basis_prod (q : List F) (i : Nat) :
    eval_basis q i = basis_prod q i := by
  rw [eval_basis, ← testBit_prod_eq_basis_prod]
  refine Finset.prod_congr rfl fun j _ => ?_
  rcases h : i.testBit j with _ | _ <;>
    simp [and_one_shiftLeft_eq_zero_iff, h]

lemma eq_formula_eq_basis_prod (r : List F) (u : Nat) :
    eq_formula r u = basis_prod r u := by
  rw [eq_formula, ← testBit_prod_eq_basis_prod]
  refine Finset.prod_congr rfl fun j _ => ?_
  rcases h : u.testBit j with _ | _ <;> simp [h]

/-! ### The iterative expansion computes the basis products -/

lemma expand_query_step_length (acc : List F) (v : F) :
    (expand_query_step acc v).length = 2 * acc.length := by
  simp [expand_query_step, two_mul]

lemma foldl_expand_step_length (qs : List F) :
    ∀ acc : List F, (qs.foldl expand_query_step acc).length = acc.length * 2 ^ qs.length := by
  induction qs with
  | nil => intro acc; simp
  | cons v qs ih =>
    intro acc
    rw [List.foldl_cons, ih, expand_query_step_length, List.length_cons, pow_succ]
    ring

lemma expand_query_step_getD (acc : List F) (v : F) (s t : Nat) (hs : s < acc.length)
    (ht : t ≤ 1) :
    (expand_query_step acc v).getD (s + t * acc.length) 0 =
      acc.getD s 0 * (if t = 1 then v else 1 - v) := by
  interval_cases t
  · simp only [Nat.zero_mul, Nat.add_zero, expand_query_step,
      List.getD_eq_getElem?_getD, List.getElem?_append, List.length_map,
      if_pos hs, List.getElem?_map]
    rcases h : acc[s]? with _ | a
    · exact absurd (List.getElem?_eq_none_iff.mp h) (Nat.not_le_of_lt hs)
    · simp only [Option.map_some', Option.getD_some]
      rw [if_neg (by norm_num)]
      ring
  · simp only [Nat.one_mul, expand_query_step, List.getD_eq_getElem?_getD,
      List.getElem?_append, List.length_map]
    rw [if_neg (by omega), Nat.add_sub_cancel, List.getElem?_map]
    rcases h : acc[s]? with _ | a
    · exact absurd (List.getElem?_eq_none_iff.mp h) (Nat.not_le_of_lt hs)
    · simp

lemma foldl_expand_step_getD (qs : List F) :
    ∀ (acc : List F) (s u : Nat), s < acc.length → u < 2 ^ qs.length →
      (qs.foldl expand_query_step acc).getD (s + u * acc.length) 0 =
        acc.getD s 0 * basis_prod qs u := by
  induction qs with
  | nil =>
    intro acc s u hs hu
    have hu0 : u = 0 := by simpa using hu
    subst hu0
    simp [basis_prod_nil]
  | cons v qs ih =>
    intro acc s u hs hu
    have hmod2 : u % 2 < 2 := Nat.mod_lt u (by norm_num)
    have hs' : s + u % 2 * acc.length < (expand_query_step acc v).length := by
      rw [expand_query_step_length]
      rcases Nat.mod_two_eq_zero_or_one u with h | h <;> rw [h] <;> omega
    have hu' : u / 2 < 2 ^ qs.length := by
      rw [List.length_cons, pow_succ] at hu
      omega
    have hidx : s + u * acc.length =
        s + u % 2 * acc.length + u / 2 * (expand_query_step acc v).length := by
      rw [expand_query_step_length]
      have hu2 : u % 2 + u / 2 * 2 = u := Nat.mod_add_div' u 2
      conv_lhs => rw [← hu2]
      ring
    rw [List.foldl_cons, hidx, ih _ _ _ hs' hu',
      expand_query_step_getD acc v s (u % 2) hs (by omega), basis_prod_cons, mul_assoc]

lemma expand_query_core_length (q : List F) :
    (expand_query_core q).length = 2 ^ q.length := by
  rw [expand_query_core, foldl_expand_step_length]
  simp

lemma expand_query_core_getD (q : List F) (i : Nat) (hi : i < 2 ^ q.length) :
    (expand_query_core q).getD i 0 = basis_prod q i := by
  have h := foldl_expand_step_getD q [1] 0 i (by simp) hi
  simpa [expand_query_core] using h

/-! ### Inner products and full evaluation -/

lemma inner_product_unchecked_cons (x y : F) (a b : List F) :
    inner_product_unchecked (x :: a) (y :: b) = x * y + inner_product_unchecked a b := rfl

lemma inner_product_unchecked_eq (a : List F) :
    ∀ b : List F, inner_product_unchecked a b =
      ∑ i ∈ Finset.range (min a.length b.length), a.getD i 0 * b.getD i 0 := by
  induction a with
  | nil => intro b; simp [inner_product_unchecked]
  | cons x a ih =>
    intro b
    cases b with
    | nil => simp [inner_product_unchecked]
    | cons y b =>
      rw [inner_product_unchecked_cons, ih b,
        show min (x :: a).length ((y :: b).length) = min a.length b.length + 1 by
          simp [Nat.succ_min_succ],
        Finset.sum_range_succ']
      simp [add_comm]

omit [CommRing F] in
lemma from_values_ok (logW μ : Nat) (v : List F) (hv : v.length = 2 ^ μ)
    (hw : logW ≤ μ) :
    MultilinearExtension.from_values logW v = .ok ⟨μ, v⟩ := by
  have hdiv : v.length / 2 ^ logW = 2 ^ (μ - logW) := by
    rw [hv, Nat.pow_div hw (by norm_num)]
  have hmul : 2 ^ (μ - logW) * 2 ^ logW = 2 ^ μ := by
    rw [← pow_add, Nat.sub_add_cancel hw]
  rw [MultilinearExtension.from_values, hdiv, if_pos (is_power_of_two_two_pow _),
    hmul, log2_two_pow]

lemma evaluate_ok (p : MultilinearExtension F) (q : List F) (hmu : p.mu = q.length)
    (h63 : q.length ≤ 63) (hev : p.evals.length = 2 ^ p.mu) :
    p.evaluate q = .ok (evalSum p q) := by
  rw [MultilinearExtension.evaluate, if_neg (by omega : ¬p.mu ≠ q.length)]
  have hexp : expand_query q = .ok (expand_query_core q) := by
    rw [expand_query, if_pos ((pow_le_usizeMax_iff _).mpr h63)]
  rw [show (do
      let basis_eval ← expand_query q
      Except.ok (inner_product_unchecked basis_eval p.evals) :
        Except PolynomialError F) =
      Except.ok (inner_product_unchecked (expand_query_core q) p.evals) by
    rw [hexp]; rfl]
  congr 1
  have hlen : p.evals.length = 2 ^ q.length := by rw [hev, hmu]
  rw [inner_product_unchecked_eq, expand_query_core_length, hlen, Nat.min_self,
    evalSum]
  exact Finset.sum_congr rfl fun i hi =>
    congrArg (· * p.evals.getD i 0) (expand_query_core_getD q i (Finset.mem_range.mp hi))

/-! ### Sum reindexing over a product of ranges -/

lemma sum_range_mul_eq (f : Nat → F) (a b : Nat) :
    ∑ i ∈ Finset.range (a * b), f i =
      ∑ t ∈ Finset.range a, ∑ v ∈ Finset.range b, f (t * b + v) := by
  induction a with
  | zero => simp
  | succ a ih =>
    rw [Nat.succ_mul, Finset.sum_range_add, ih, Finset.sum_range_succ]

/-! ### Evaluation at boolean points -/

lemma binary_succ (μ i : Nat) :
    binary (F := F) (μ + 1) i =
      (if i % 2 = 1 then (1 : F) else 0) :: binary μ (i / 2) := by
  rw [binary, List.range_succ_eq_map, List.map_cons, List.map_map]
  congr 1
  · cases h : i.testBit 0 <;>
      simp_all [Nat.testBit_zero]
  · rw [binary]
    exact List.map_congr_left fun j _ => by
      simp [Function.comp, Nat.testBit_succ]

lemma binary_length (μ i : Nat) : (binary (F := F) μ i).length = μ := by
  simp [binary]

lemma basis_prod_binary (μ : Nat) : ∀ i t : Nat, i < 2 ^ μ → t < 2 ^ μ →
    basis_prod (binary (F := F) μ i) t = if t = i then 1 else 0 := by
  induction μ with
  | zero =>
    intro i t hi ht
    have hi0 : i = 0 := by simpa using hi
    have ht0 : t = 0 := by simpa using ht
    subst hi0; subst ht0
    simp [binary, basis_prod_nil]
  | succ μ ih =>
    intro i t hi ht
    have hi' : i / 2 < 2 ^ μ := by rw [pow_succ] at hi; omega
    have ht' : t / 2 < 2 ^ μ := by rw [pow_succ] at ht; omega
    rw [binary_succ, basis_prod_cons, ih (i / 2) (t / 2) hi' ht']
    rcases Nat.mod_two_eq_zero_or_one i with hi2 | hi2 <;>
      rcases Nat.mod_two_eq_zero_or_one t with ht2 | ht2 <;>
      by_cases hd : t / 2 = i / 2 <;>
      by_cases he : t = i <;>
      simp [hi2, ht2, hd, he] <;>
      omega

/-! ### Merging -/

omit [CommRing F] in
lemma list_copy_length (dst src : List F) (offset : Nat)
    (h : offset + src.length ≤ dst.length) :
    (list_copy dst offset src).length = dst.length := by
  simp only [list_copy, List.length_append, List.length_take, List.length_drop]
  omega

omit [CommRing F] in
lemma list_copy_take (dst src : List F) (offset : Nat)
    (h : offset + src.length ≤ dst.length) :
    (list_copy dst offset src).take (offset + src.length) =
      dst.take offset ++ src := by
  have h1 : (dst.take offset).length = offset := by
    rw [List.length_take]
    omega
  have h2 : (dst.take offset ++ src).length = offset + src.length := by
    rw [List.length_append, h1]
  rw [list_copy, List.append_assoc, ← List.append_assoc,
    show offset + src.length = (dst.take offset ++ src).length + 0 by omega,
    List.take_append, List.take_zero, List.append_nil]

omit [CommRing F] in
lemma foldl_list_copy_eq (S : Nat) :
    ∀ (polys : List (MultilinearExtension F)) (init : List F) (k : Nat),
      (∀ p ∈ polys, p.evals.length = S) →
      init.length = k * S + polys.length * S →
      (polys.zip (List.range' k polys.length)).foldl
          (fun acc pu => list_copy acc (pu.2 * S) pu.1.evals) init =
        init.take (k * S) ++ (polys.map (·.evals)).flatten := by
  intro polys
  induction polys with
  | nil =>
    intro init k _ hlen
    simp only [List.length_nil, Nat.zero_mul, Nat.add_zero] at hlen
    simp only [List.length_nil, List.zip_nil_left, List.foldl_nil, List.map_nil,
      List.flatten_nil, List.append_nil]
    rw [List.take_of_length_le (by omega)]
  | cons p polys ih =>
    intro init k hS hlen
    have hpS : p.evals.length = S := hS p (List.mem_cons_self _ _)
    have hfit : k * S + p.evals.length ≤ init.length := by
      rw [hpS, hlen, List.length_cons]
      have : (polys.length + 1) * S = polys.length * S + S := by ring
      omega
    have hcopylen : (list_copy init (k * S) p.evals).length = init.length :=
      list_copy_length init p.evals (k * S) hfit
    rw [List.length_cons, List.range'_succ, List.zip_cons_cons, List.foldl_cons]
    rw [ih (list_copy init (k * S) p.evals) (k + 1)
      (fun x hx => hS x (List.mem_cons_of_mem p hx))
      (by rw [hcopylen, hlen, List.length_cons]; ring)]
    have htake : (list_copy init (k * S) p.evals).take ((k + 1) * S) =
        init.take (k * S) ++ p.evals := by
      rw [show (k + 1) * S = k * S + p.evals.length by rw [hpS]; ring]
      exact list_copy_take init p.evals (k * S) hfit
    rw [htake, List.map_cons, List.flatten_cons, List.append_assoc]

omit [CommRing F] in
lemma flatten_length_of_uniform (S : Nat) :
    ∀ ls : List (List F), (∀ l ∈ ls, l.length = S) →
      ls.flatten.length = ls.length * S := by
  intro ls
  induction ls with
  | nil => intro _; simp
  | cons l ls ih =>
    intro h
    rw [List.flatten_cons, List.length_append, h l (List.mem_cons_self _ _),
      ih fun x hx => h x (List.mem_cons_of_mem l hx), List.length_cons]
    ring

lemma flatten_getD_uniform (S : Nat) :
    ∀ (ls : List (List F)) (u v : Nat), (∀ l ∈ ls, l.length = S) → v < S →
      u < ls.length →
      ls.flatten.getD (u * S + v) 0 = (ls.getD u []).getD v 0 := by
  intro ls
  induction ls with
  | nil => intro u v _ _ hu; simp at hu
  | cons l ls ih =>
    intro u v hS hv hu
    have hlS : l.length = S := hS l (List.mem_cons_self _ _)
    cases u with
    | zero =>
      simp only [Nat.zero_mul, Nat.zero_add, List.flatten_cons, List.getD_cons_zero,
        List.getD_eq_getElem?_getD, List.getElem?_append, List.getElem?_cons_zero,
        Option.getD_some]
      rw [if_pos (by omega)]
    | succ u =>
      rw [List.flatten_cons, List.getD_eq_getElem?_getD, List.getElem?_append,
        if_neg (by push_neg; rw [hlS]; calc S ≤ (u + 1) * S := by nlinarith
          _ ≤ (u + 1) * S + v := by omega),
        show (u + 1) * S + v - l.length = u * S + v by rw [hlS]; ring_nf; omega,
        ← List.getD_eq_getElem?_getD,
        ih u v (fun x hx => hS x (List.mem_cons_of_mem l hx)) hv
          (by rw [List.length_cons] at hu; omega)]
      rfl

lemma merge_polynomials_ok {ε : Type} (logW n m : Nat)
    (polys : List (MultilinearExtension F)) (hlen : polys.length = 2 ^ m)
    (hmu : ∀ p ∈ polys, p.mu = n) (hev : ∀ p ∈ polys, p.evals.length = 2 ^ n)
    (hw : logW ≤ n) :
    merge_polynomials (ε := ε) logW polys =
      .ok ⟨n + m, (polys.map (·.evals)).flatten⟩ := by
  have hne : polys.length ≠ 0 := by rw [hlen]; positivity
  have hp2 : is_power_of_two polys.length = true := by
    rw [hlen]; exact is_power_of_two_two_pow m
  have hhead : (polys.headD ⟨0, []⟩).mu = n := by
    cases polys with
    | nil => simp at hne
    | cons p polys => exact hmu p (List.mem_cons_self _ _)
  have hslot : 2 ^ (n - logW) * 2 ^ logW = 2 ^ n := by
    rw [← pow_add, Nat.sub_add_cancel hw]
  have hm' : log2 polys.length = m := by rw [hlen, log2_two_pow]
  have hmerged : merged_evals logW (polys.headD ⟨0, []⟩).mu
      (log2 polys.length) polys = (polys.map (·.evals)).flatten := by
    rw [merged_evals, hhead, hm', List.range_eq_range', hslot,
      show (2 ^ (n - logW) <<< m) * 2 ^ logW = 0 * 2 ^ n + polys.length * 2 ^ n by
        rw [Nat.shiftLeft_eq, hlen, ← hslot]; ring,
      foldl_list_copy_eq (2 ^ n) polys _ 0 hev (by rw [List.length_replicate])]
    simp
  have hflatlen : ((polys.map (·.evals)).flatten).length = 2 ^ (n + m) := by
    rw [flatten_length_of_uniform (2 ^ n) _ (by
        intro l hl
        rcases List.mem_map.mp hl with ⟨p, hp, rfl⟩
        exact hev p hp),
      List.length_map, hlen, pow_add]
    ring
  simp only [merge_polynomials]
  rw [if_neg (by push_neg; exact ⟨hne, by simp [hp2]⟩),
    if_neg (by
      simp only [List.any_eq_true, decide_eq_true_eq, not_exists, not_and, not_not]
      intro x hx
      rw [hmu x hx, hhead]),
    hmerged, from_values_ok logW (n + m) _ hflatlen (le_trans hw (Nat.le_add_right n m))]

lemma merge_polynomials_numpolys {ε : Type} (logW : Nat)
    (polys : List (MultilinearExtension F))
    (h : polys.length = 0 ∨ is_power_of_two polys.length = false) :
    merge_polynomials (ε := ε) logW polys = .error .NumPolys := by
  simp only [merge_polynomials]
  rw [if_pos h]

lemma merge_polynomials_ne_numpolys {ε : Type} (logW : Nat)
    (polys : List (MultilinearExtension F)) (h1 : polys.length ≠ 0)
    (h2 : is_power_of_two polys.length = true) :
    merge_polynomials (ε := ε) logW polys ≠ .error .NumPolys := by
  simp only [merge_polynomials]
  rw [if_neg (by push_neg; exact ⟨h1, by simp [h2]⟩)]
  split
  · simp
  · split <;> simp

lemma merge_polynomials_numvars {ε : Type} (logW : Nat)
    (polys : List (MultilinearExtension F)) (h1 : polys.length ≠ 0)
    (h2 : is_power_of_two polys.length = true)
    (h3 : ∃ p ∈ polys, p.mu ≠ (polys.headD ⟨0, []⟩).mu) :
    merge_polynomials (ε := ε) logW polys = .error .NumVars := by
  simp only [merge_polynomials]
  rw [if_neg (by push_neg; exact ⟨h1, by simp [h2]⟩),
    if_pos (by simpa only [List.any_eq_true, decide_eq_true_eq] using h3)]

lemma merge_polynomials_ne_numvars {ε : Type} (logW : Nat)
    (polys : List (MultilinearExtension F)) (h1 : polys.length ≠ 0)
    (h2 : is_power_of_two polys.length = true)
    (h3 : ∀ p ∈ polys, p.mu = (polys.headD ⟨0, []⟩).mu) :
    merge_polynomials (ε := ε) logW polys ≠ .error .NumVars := by
  simp only [merge_polynomials]
  rw [if_neg (by push_neg; exact ⟨h1, by simp [h2]⟩),
    if_neg (by
      simp only [List.any_eq_true, decide_eq_true_eq, not_exists, not_and, not_not]
      exact h3)]
  split <;> simp

/-! ### Partial evaluation over the high variables -/

omit [CommRing F] in
lemma chunks_exact_length {k : Nat} (hk : 0 < k) :
    ∀ (c : Nat) (l : List F), l.length = c * k → (chunks_exact k l).length = c := by
  intro c
  induction c with
  | zero =>
    intro l hl
    simp only [Nat.zero_mul] at hl
    unfold chunks_exact
    rw [dif_neg (by omega)]
    rfl
  | succ c ih =>
    intro l hl
    unfold chunks_exact
    rw [dif_pos ⟨hk, by rw [hl, Nat.succ_mul]; omega⟩, List.length_cons,
      ih (l.drop k) (by rw [List.length_drop, hl, Nat.succ_mul]; omega)]

omit [CommRing F] in
lemma chunks_exact_getD {k : Nat} (hk : 0 < k) :
    ∀ (c : Nat) (l : List F) (t : Nat), l.length = c * k → t < c →
      (chunks_exact k l).getD t [] = (l.drop (t * k)).take k := by
  intro c
  induction c with
  | zero => intro l t _ ht; omega
  | succ c ih =>
    intro l t hl ht
    unfold chunks_exact
    rw [dif_pos ⟨hk, by rw [hl, Nat.succ_mul]; omega⟩]
    cases t with
    | zero => simp
    | succ t =>
      rw [List.getD_cons_succ,
        ih (l.drop k) t (by rw [List.length_drop, hl, Nat.succ_mul]; omega)
          (by omega),
        List.drop_drop, show k + t * k = (t + 1) * k by ring]

omit [CommRing F] in
lemma chunks_exact_mem_length_aux {k : Nat} :
    ∀ (n : Nat) (l : List F), l.length ≤ n → ∀ c ∈ chunks_exact k l, c.length = k := by
  intro n
  induction n with
  | zero =>
    intro l hl c hc
    have : l = [] := List.eq_nil_of_length_eq_zero (by omega)
    subst this
    unfold chunks_exact at hc
    rw [dif_neg (by simp; omega)] at hc
    simp at hc
  | succ n ih =>
    intro l hl c hc
    by_cases hg : 0 < k ∧ k ≤ l.length
    · unfold chunks_exact at hc
      rw [dif_pos hg] at hc
      rcases List.mem_cons.mp hc with rfl | hc'
      · rw [List.length_take]
        omega
      · exact ih (l.drop k) (by rw [List.length_drop]; omega) c hc'
    · unfold chunks_exact at hc
      rw [dif_neg hg] at hc
      simp at hc

omit [CommRing F] in
lemma chunks_exact_mem_length {k : Nat} (l : List F) :
    ∀ c ∈ chunks_exact k l, c.length = k :=
  chunks_exact_mem_length_aux l.length l le_rfl

lemma foldl_zipWith_length (L : List (MultilinearExtension F × F)) :
    ∀ acc : List F, (∀ cb ∈ L, acc.length ≤ cb.1.evals.length) →
      (L.foldl (fun a cb => List.zipWith (fun r s => r + cb.2 * s) a cb.1.evals)
        acc).length = acc.length := by
  induction L with
  | nil => intro acc _; rfl
  | cons cb L ih =>
    intro acc h
    have hlen : (List.zipWith (fun r s => r + cb.2 * s) acc cb.1.evals).length =
        acc.length := by
      rw [List.length_zipWith]
      exact min_eq_left (h cb (List.mem_cons_self _ _))
    rw [List.foldl_cons,
      ih _ (by intro x hx; rw [hlen]; exact h x (List.mem_cons_of_mem _ hx)), hlen]

lemma foldl_zipWith_getD (L : List (MultilinearExtension F × F)) :
    ∀ (acc : List F) (v : Nat), v < acc.length →
      (∀ cb ∈ L, acc.length ≤ cb.1.evals.length) →
      (L.foldl (fun a cb => List.zipWith (fun r s => r + cb.2 * s) a cb.1.evals)
          acc).getD v 0 =
        acc.getD v 0 + (L.map fun cb => cb.2 * cb.1.evals.getD v 0).sum := by
  induction L with
  | nil => intro acc v _ _; simp
  | cons cb L ih =>
    intro acc v hv h
    have hle := h cb (List.mem_cons_self _ _)
    have hlen : (List.zipWith (fun r s => r + cb.2 * s) acc cb.1.evals).length =
        acc.length := by
      rw [List.length_zipWith]
      exact min_eq_left hle
    have hv' : v < cb.1.evals.length := lt_of_lt_of_le hv hle
    have hz : (List.zipWith (fun r s => r + cb.2 * s) acc cb.1.evals).getD v 0 =
        acc.getD v 0 + cb.2 * cb.1.evals.getD v 0 := by
      rw [List.getD_eq_getElem?_getD, List.getElem?_zipWith,
        List.getElem?_eq_getElem hv, List.getElem?_eq_getElem hv',
        List.getD_eq_getElem acc 0 hv, List.getD_eq_getElem cb.1.evals 0 hv']
      rfl
    rw [List.foldl_cons,
      ih _ v (by rw [hlen]; exact hv)
        (by intro x hx; rw [hlen]; exact h x (List.mem_cons_of_mem _ hx)),
      hz, List.map_cons, List.sum_cons]
    ring

lemma map_sum_eq_sum_range {α : Type} (f : α → F) (d : α) :
    ∀ L : List α, (L.map f).sum = ∑ t ∈ Finset.range L.length, f (L.getD t d) := by
  intro L
  induction L with
  | nil => simp
  | cons x L ih =>
    rw [List.map_cons, List.sum_cons, List.length_cons, Finset.sum_range_succ', ih]
    simp only [List.getD_cons_succ, List.getD_cons_zero]
    ring

lemma take_drop_getD (l : List F) (a k v : Nat) (hv : v < k) :
    ((l.drop a).take k).getD v 0 = l.getD (a + v) 0 := by
  rw [List.getD_eq_getElem?_getD, List.getElem?_take, if_pos hv,
    List.getElem?_drop, List.getD_eq_getElem?_getD]

lemma getD_replicate_zero (n v : Nat) : (List.replicate n (0 : F)).getD v 0 = 0 := by
  rw [List.getD_eq_getElem?_getD, List.getElem?_replicate]
  split <;> rfl

lemma evaluate_partial_high_ok (logW logWPE : Nat) (p : MultilinearExtension F)
    (q : List F) (hk : q.length ≤ p.mu) (hWPE : logWPE ≤ p.mu - q.length)
    (hWP : logW ≤ p.mu - q.length) (hev : p.evals.length = 2 ^ p.mu)
    (h63 : q.length ≤ 63) :
    ∃ p', p.evaluate_partial_high logW logWPE q = .ok p' ∧
      p'.mu = p.mu - q.length ∧ p'.evals.length = 2 ^ (p.mu - q.length) ∧
      ∀ v < 2 ^ (p.mu - q.length), p'.evals.getD v 0 =
        ∑ t ∈ Finset.range (2 ^ q.length),
          basis_prod q t * p.evals.getD (t * 2 ^ (p.mu - q.length) + v) 0 := by
  have hBpos : 0 < 2 ^ (p.mu - q.length) := Nat.pos_pow_of_pos _ (by norm_num)
  have hsplit : p.evals.length = 2 ^ q.length * 2 ^ (p.mu - q.length) := by
    rw [hev, ← pow_add]
    congr 1
    omega
  have hchlen : (chunks_exact (2 ^ (p.mu - q.length)) p.evals).length =
      2 ^ q.length := chunks_exact_length hBpos _ _ hsplit
  have hinitlen : (List.replicate
      (2 ^ (p.mu - q.length) / 2 ^ logWPE * 2 ^ logWPE) (0 : F)).length =
      2 ^ (p.mu - q.length) := by
    rw [List.length_replicate]
    exact Nat.div_mul_cancel (pow_dvd_pow 2 hWPE)
  have hmemlen : ∀ cb ∈ ((chunks_exact (2 ^ (p.mu - q.length)) p.evals).map
      fun c => (⟨p.mu - q.length, c⟩ : MultilinearExtension F)).zip
        (expand_query_core q),
      (List.replicate (2 ^ (p.mu - q.length) / 2 ^ logWPE * 2 ^ logWPE)
        (0 : F)).length ≤ cb.1.evals.length := by
    intro cb hcb
    have h1 := (List.of_mem_zip hcb).1
    rcases List.mem_map.mp h1 with ⟨c, hc, heq⟩
    rw [← heq, hinitlen]
    exact le_of_eq (chunks_exact_mem_length p.evals c hc).symm
  have hred : p.evaluate_partial_high logW logWPE q =
      MultilinearExtension.from_values logWPE
        ((((chunks_exact (2 ^ (p.mu - q.length)) p.evals).map
            fun c => (⟨p.mu - q.length, c⟩ : MultilinearExtension F)).zip
          (expand_query_core q)).foldl
          (fun acc sb => List.zipWith (fun r s => r + sb.2 * s) acc sb.1.evals)
          (List.replicate (2 ^ (p.mu - q.length) / 2 ^ logWPE * 2 ^ logWPE) 0)) := by
    rw [MultilinearExtension.evaluate_partial_high, if_neg (by omega),
      if_neg (not_lt.mpr (Nat.pow_le_pow_right (by norm_num) hWPE)),
      (show expand_query q = Except.ok (expand_query_core q) by
        rw [expand_query, if_pos ((pow_le_usizeMax_iff _).mpr h63)]),
      MultilinearExtension.iter_subpolynomials_high,
      if_neg (by push_neg; omega)]
    rfl
  have hfoldlen : ((((chunks_exact (2 ^ (p.mu - q.length)) p.evals).map
      fun c => (⟨p.mu - q.length, c⟩ : MultilinearExtension F)).zip
        (expand_query_core q)).foldl
        (fun acc sb => List.zipWith (fun r s => r + sb.2 * s) acc sb.1.evals)
        (List.replicate (2 ^ (p.mu - q.length) / 2 ^ logWPE * 2 ^ logWPE)
          (0 : F))).length = 2 ^ (p.mu - q.length) := by
    rw [foldl_zipWith_length _ _ hmemlen, hinitlen]
  refine ⟨_, by rw [hred, from_values_ok logWPE (p.mu - q.length) _ hfoldlen hWPE],
    rfl, hfoldlen, ?_⟩
  intro v hv
  have hziplen : (((chunks_exact (2 ^ (p.mu - q.length)) p.evals).map
      fun c => (⟨p.mu - q.length, c⟩ : MultilinearExtension F)).zip
        (expand_query_core q)).length = 2 ^ q.length := by
    rw [List.length_zip, List.length_map, hchlen, expand_query_core_length,
      Nat.min_self]
  rw [foldl_zipWith_getD _ _ v (by rw [hinitlen]; exact hv) hmemlen,
    getD_replicate_zero, zero_add,
    map_sum_eq_sum_range _ ((⟨0, []⟩ : MultilinearExtension F), (0 : F)), hziplen]
  refine Finset.sum_congr rfl fun t ht => ?_
  have ht' : t < 2 ^ q.length := Finset.mem_range.mp ht
  have htc : t < (expand_query_core q).length := by
    rw [expand_query_core_length]
    exact ht'
  have htch : t < (chunks_exact (2 ^ (p.mu - q.length)) p.evals).length := by
    rw [hchlen]
    exact ht'
  have htL : t < (((chunks_exact (2 ^ (p.mu - q.length)) p.evals).map
      fun c => (⟨p.mu - q.length, c⟩ : MultilinearExtension F)).zip
        (expand_query_core q)).length := by
    rw [hziplen]
    exact ht'
  rw [List.getD_eq_getElem _ _ htL, List.getElem_zip]
  dsimp only
  rw [List.getElem_map]
  dsimp only
  rw [← List.getD_eq_getElem (expand_query_core q) 0 htc,
    expand_query_core_getD q t ht',
    ← List.getD_eq_getElem (chunks_exact (2 ^ (p.mu - q.length)) p.evals) [] htch,
    chunks_exact_getD hBpos (2 ^ q.length) p.evals t hsplit ht',
    take_drop_getD p.evals _ _ v hv]

lemma evaluate_partial_high_evalSum (logW logWPE : Nat)
    (p : MultilinearExtension F) (q q_lo : List F) (hk : q.length ≤ p.mu)
    (hWPE : logWPE ≤ p.mu - q.length) (hWP : logW ≤ p.mu - q.length)
    (hev : p.evals.length = 2 ^ p.mu) (h63 : q.length ≤ 63)
    (hlo : q_lo.length = p.mu - q.length) :
    ∃ p', p.evaluate_partial_high logW logWPE q = .ok p' ∧
      p'.mu = p.mu - q.length ∧ p'.evals.length = 2 ^ (p.mu - q.length) ∧
      evalSum p' q_lo = evalSum p (q_lo ++ q) := by
  obtain ⟨p', h1, h2, h3, h4⟩ :=
    evaluate_partial_high_ok logW logWPE p q hk hWPE hWP hev h63
  refine ⟨p', h1, h2, h3, ?_⟩
  have hB : 2 ^ q_lo.length = 2 ^ (p.mu - q.length) := by rw [hlo]
  have hstep : ∀ v ∈ Finset.range (2 ^ q_lo.length),
      basis_prod q_lo v * p'.evals.getD v 0 =
        ∑ t ∈ Finset.range (2 ^ q.length),
          basis_prod (q_lo ++ q) (t * 2 ^ q_lo.length + v) *
            p.evals.getD (t * 2 ^ q_lo.length + v) 0 := by
    intro v hv
    have hv' : v < 2 ^ q_lo.length := Finset.mem_range.mp hv
    rw [h4 v (hB ▸ hv'), Finset.mul_sum]
    refine Finset.sum_congr rfl fun t ht => ?_
    rw [basis_prod_mul_add q_lo q t v hv', hlo]
    ring
  rw [evalSum, evalSum, List.length_append,
    show 2 ^ (q_lo.length + q.length) = 2 ^ q.length * 2 ^ q_lo.length by
      rw [pow_add]; ring,
    sum_range_mul_eq, Finset.sum_congr rfl hstep, Finset.sum_comm]

lemma apply_splits_high_ok (logW : Nat) :
    ∀ (ks : List Nat) (p : MultilinearExtension F) (q : List F),
      p.mu = q.length → p.evals.length = 2 ^ p.mu → q.length ≤ 63 →
      ks.sum + logW ≤ q.length →
      apply_splits_high logW p q ks = .ok (evalSum p q) := by
  intro ks
  induction ks with
  | nil =>
    intro p q hmu hev h63 _
    exact evaluate_ok p q hmu h63 hev
  | cons k ks ih =>
    intro p q hmu hev h63 hsum
    rw [List.sum_cons] at hsum
    have hkq : k ≤ q.length := by omega
    have hdrop : (q.drop (q.length - k)).length = k := by
      rw [List.length_drop]
      omega
    have htake : (q.take (q.length - k)).length = q.length - k := by
      rw [List.length_take]
      omega
    obtain ⟨p', h1, h2, h3, h4⟩ := evaluate_partial_high_evalSum logW logW p
      (q.drop (q.length - k)) (q.take (q.length - k))
      (by rw [hdrop]; omega) (by rw [hdrop]; omega) (by rw [hdrop]; omega)
      hev (by rw [hdrop]; omega) (by rw [htake, hdrop, hmu])
    rw [apply_splits_high, h1,
      show (do
        let p'' ← Except.ok p'
        apply_splits_high logW p'' (q.take (q.length - k)) ks :
          Except PolynomialError F) =
        apply_splits_high logW p' (q.take (q.length - k)) ks from rfl,
      ih p' (q.take (q.length - k))
        (by rw [h2, hdrop, htake, hmu])
        (by rw [h3, h2, hdrop, hmu])
        (by rw [htake]; omega)
        (by rw [htake]; omega),
      h4, List.take_append_drop]

/-! ### The batch PCS adapter -/

omit [CommRing F] in
lemma sample_vec_length {σ : Type} (sample : σ → F × σ) :
    ∀ (s : σ) (n : Nat), (sample_vec sample s n).1.length = n := by
  intro s n
  induction n generalizing s with
  | zero => rfl
  | succ n ih => simp [sample_vec, ih]

omit [CommRing F] in
lemma from_values_error_shape (logW : Nat) (v : List F) (e : PolynomialError)
    (h : MultilinearExtension.from_values logW v = .error e) :
    e = .PowerOfTwoLengthRequired := by
  rw [MultilinearExtension.from_values] at h
  split at h
  · exact Except.noConfusion h
  · injection h with h'
    exact h'.symm

lemma merge_polynomials_error_shape {ε : Type} (logW : Nat)
    (polys : List (MultilinearExtension F)) (e : BatchError ε)
    (h : merge_polynomials (ε := ε) logW polys = .error e) :
    e = .NumPolys ∨ e = .NumVars ∨ e = .Polynomial .PowerOfTwoLengthRequired := by
  simp only [merge_polynomials] at h
  split at h
  · injection h with h'
    exact .inl h'.symm
  · split at h
    · injection h with h'
      exact .inr (.inl h'.symm)
    · split at h
      · exact Except.noConfusion h
      · injection h with h'
        rename_i e' heq
        rw [from_values_error_shape logW _ e' heq] at h'
        exact .inr (.inr h'.symm)

omit [CommRing F] in
lemma mapError_ok_iff {ε ε' α : Type} (f : ε → ε') (x : Except ε α) (a : α) :
    (x.mapError f = .ok a) ↔ x = .ok a := by
  cases x <;> simp [Except.mapError]

lemma prove_evaluation_eq {σ Commitment Committed Pf ε : Type}
    (pcs : BatchPCS F σ Commitment Committed Pf ε) (sample : σ → F × σ) (s : σ)
    (committed : Committed) (polys : List (MultilinearExtension F))
    (query : List F) (hq : query.length = pcs.n_vars) :
    pcs.prove_evaluation sample s committed polys query =
      match merge_polynomials (ε := ε) pcs.logW polys with
      | .error e => ((sample_vec sample s pcs.log_num_polys).2, .error e)
      | .ok merged =>
        ((pcs.inner.prove_evaluation (sample_vec sample s pcs.log_num_polys).2
            committed [merged]
            (query ++ (sample_vec sample s pcs.log_num_polys).1)).1,
          ((pcs.inner.prove_evaluation
            (sample_vec sample s pcs.log_num_polys).2 committed [merged]
            (query ++ (sample_vec sample s pcs.log_num_polys).1)).2.mapError
              BatchError.InnerPCS).map BatchProof.mk) := by
  rw [BatchPCS.prove_evaluation, if_neg (by omega)]

lemma verify_evaluation_reduction {σ Commitment Committed Pf ε : Type}
    (pcs : BatchPCS F σ Commitment Committed Pf ε) (sample : σ → F × σ) (s : σ)
    (c : Commitment) (query : List F) (pf : BatchProof Pf) (values : List F)
    (hv : values.length = 2 ^ pcs.log_num_polys) (hm : pcs.log_num_polys ≤ 63) :
    pcs.verify_evaluation sample s c query pf values =
      ((pcs.inner.verify_evaluation (sample_vec sample s pcs.log_num_polys).2 c
        (query ++ (sample_vec sample s pcs.log_num_polys).1) pf.inner
        [evalSum ⟨pcs.log_num_polys, values⟩
          (sample_vec sample s pcs.log_num_polys).1]).1,
      (pcs.inner.verify_evaluation (sample_vec sample s pcs.log_num_polys).2 c
        (query ++ (sample_vec sample s pcs.log_num_polys).1) pf.inner
        [evalSum ⟨pcs.log_num_polys, values⟩
          (sample_vec sample s pcs.log_num_polys).1]).2.mapError
        BatchError.InnerPCS) := by
  have hfv : MultilinearExtension.from_values 0 values =
      .ok ⟨pcs.log_num_polys, values⟩ :=
    from_values_ok 0 pcs.log_num_polys values hv (Nat.zero_le _)
  have hev : MultilinearExtension.evaluate
      (⟨pcs.log_num_polys, values⟩ : MultilinearExtension F)
      (sample_vec sample s pcs.log_num_polys).1 =
      .ok (evalSum ⟨pcs.log_num_polys, values⟩
        (sample_vec sample s pcs.log_num_polys).1) :=
    evaluate_ok _ _ (sample_vec_length sample s _).symm
      (by rw [sample_vec_length]; exact hm) hv
  rw [BatchPCS.verify_evaluation, hfv]
  dsimp only
  rw [hev]

/-! ### Claim theorems -/

/-- Counterexample to C9 as stated: at a length-64 query (a realizable input
the claim quantifies over), the shared tensor expansion overflows `usize` and
`batch_evaluate` yields `Err(TooManyVariables)` even for a polynomial whose
`μ` differs from `|q|` — not the claimed `Err(IncorrectQuerySize)`. -/
theorem batch_evaluate_toomany_counterexample :
    (⟨1, [0, 0]⟩ : MultilinearExtension (ZMod 2)).mu ≠
      (List.replicate 64 (0 : ZMod 2)).length ∧
    MultilinearExtension.batch_evaluate
        [(⟨1, [0, 0]⟩ : MultilinearExtension (ZMod 2))]
        (List.replicate 64 (0 : ZMod 2)) =
      [.error .TooManyVariables] ∧
    MultilinearExtension.batch_evaluate
        [(⟨1, [0, 0]⟩ : MultilinearExtension (ZMod 2))]
        (List.replicate 64 (0 : ZMod 2)) ≠
      [.error (.IncorrectQuerySize 1)] := by
  decide

/-- Claim C9 (amended): when the expansion length `2^|q|` fits the platform's
index range (`|q| ≤ 63`), `batch_evaluate` yields exactly one result per
polynomial, in order: `Ok(evaluate(q))` for each polynomial whose `μ` matches
`|q|`, `Err(IncorrectQuerySize)` for each mismatching one; one item's error
does not affect later items, and the iteration ends after the last
polynomial.  When `2^|q|` overflows `usize`, the shared expansion fails once
and every item uniformly yields `Err(TooManyVariables)` instead. -/
theorem batch_evaluate_spec (polys : List (MultilinearExtension F))
    (q : List F) :
    (q.length ≤ 63 →
      MultilinearExtension.batch_evaluate polys q =
        polys.map (fun p => p.evaluate q) ∧
      (MultilinearExtension.batch_evaluate polys q).length = polys.length ∧
      (∀ p ∈ polys, p.mu = q.length →
        p.evaluate q =
          .ok (inner_product_unchecked (expand_query_core q) p.evals)) ∧
      (∀ p ∈ polys, p.mu ≠ q.length →
        p.evaluate q = .error (.IncorrectQuerySize p.mu))) ∧
    (64 ≤ q.length →
      MultilinearExtension.batch_evaluate polys q =
        polys.map (fun _ => .error .TooManyVariables)) := by
  constructor
  · intro h63
    have hexp : expand_query q = .ok (expand_query_core q) := by
      rw [expand_query, if_pos ((pow_le_usizeMax_iff _).mpr h63)]
    have hitem : ∀ p : MultilinearExtension F,
        (match expand_query q with
          | .error e => .error e
          | .ok basis =>
            if p.mu ≠ q.length then .error (.IncorrectQuerySize p.mu)
            else .ok (inner_product_unchecked basis p.evals)) = p.evaluate q := by
      intro p
      simp only [hexp, MultilinearExtension.evaluate]
      by_cases h : p.mu ≠ q.length
      · rw [if_pos h, if_pos h]
      · rw [if_neg h, if_neg h]
        rfl
    refine ⟨?_, ?_, ?_, ?_⟩
    · simp only [MultilinearExtension.batch_evaluate]
      exact List.map_congr_left fun p _ => hitem p
    · simp only [MultilinearExtension.batch_evaluate, List.length_map]
    · intro p _ hmu
      rw [MultilinearExtension.evaluate, if_neg (by omega), hexp]
      rfl
    · intro p _ hmu
      rw [MultilinearExtension.evaluate, if_pos hmu]
  · intro h64
    have hexp : expand_query (F := F) q = .error .TooManyVariables := by
      rw [expand_query, if_neg (by rw [pow_le_usizeMax_iff]; omega)]
    simp only [MultilinearExtension.batch_evaluate]
    exact List.map_congr_left fun p _ => by rw [hexp]

/-- Witness for the amended C9: three MLEs over `ZMod 5` of 1, 2 and 1
variables against a length-1 query; the middle one errors while the others
evaluate. -/
theorem batch_evaluate_spec_witness :
    (([(2 : ZMod 5)]).length ≤ 63) ∧
    MultilinearExtension.batch_evaluate
        [(⟨1, [1, 2]⟩ : MultilinearExtension (ZMod 5)), ⟨2, [1, 2, 3, 4]⟩,
          ⟨1, [3, 4]⟩] [2] =
      ([(⟨1, [1, 2]⟩ : MultilinearExtension (ZMod 5)), ⟨2, [1, 2, 3, 4]⟩,
        ⟨1, [3, 4]⟩]).map (fun p => p.evaluate [2]) :=
  ⟨by decide,
    ((batch_evaluate_spec [⟨1, [1, 2]⟩, ⟨2, [1, 2, 3, 4]⟩, ⟨1, [3, 4]⟩]
      [2]).1 (by decide)).1⟩

/-- Claim C5: `verify_evaluation` samples `r' = sample_vec(m)`, computes
`mixed = S(r')` where `S` is the multilinear with evaluations `values` on
`{0,1}^m` (equal to `∑_u eq(r', u) · values[u]`), and delegates to the inner
PCS on the augmented query `query ++ r'` with the single claimed value
`[mixed]`; inner errors are wrapped as `InnerPCS` and the call succeeds exactly
when the inner verification succeeds. -/
theorem verify_evaluation_spec {σ Commitment Committed Pf ε : Type}
    (pcs : BatchPCS F σ Commitment Committed Pf ε) (sample : σ → F × σ) (s : σ)
    (c : Commitment) (query : List F) (pf : BatchProof Pf) (values : List F)
    (hv : values.length = 2 ^ pcs.log_num_polys) (hm : pcs.log_num_polys ≤ 63) :
    pcs.verify_evaluation sample s c query pf values =
      ((pcs.inner.verify_evaluation (sample_vec sample s pcs.log_num_polys).2 c
        (query ++ (sample_vec sample s pcs.log_num_polys).1) pf.inner
        [∑ u ∈ Finset.range (2 ^ pcs.log_num_polys),
          eq_formula (sample_vec sample s pcs.log_num_polys).1 u *
            values.getD u 0]).1,
      (pcs.inner.verify_evaluation (sample_vec sample s pcs.log_num_polys).2 c
        (query ++ (sample_vec sample s pcs.log_num_polys).1) pf.inner
        [∑ u ∈ Finset.range (2 ^ pcs.log_num_polys),
          eq_formula (sample_vec sample s pcs.log_num_polys).1 u *
            values.getD u 0]).2.mapError BatchError.InnerPCS) ∧
    ((pcs.verify_evaluation sample s c query pf values).2 = .ok () ↔
      (pcs.inner.verify_evaluation (sample_vec sample s pcs.log_num_polys).2 c
        (query ++ (sample_vec sample s pcs.log_num_polys).1) pf.inner
        [∑ u ∈ Finset.range (2 ^ pcs.log_num_polys),
          eq_formula (sample_vec sample s pcs.log_num_polys).1 u *
            values.getD u 0]).2 = .ok ()) := by
  have hmix : evalSum (⟨pcs.log_num_polys, values⟩ : MultilinearExtension F)
      (sample_vec sample s pcs.log_num_polys).1 =
      ∑ u ∈ Finset.range (2 ^ pcs.log_num_polys),
        eq_formula (sample_vec sample s pcs.log_num_polys).1 u *
          values.getD u 0 := by
    rw [evalSum, sample_vec_length]
    exact Finset.sum_congr rfl fun u _ => by rw [eq_formula_eq_basis_prod]
  have hred := verify_evaluation_reduction pcs sample s c query pf values hv hm
  rw [hmix] at hred
  refine ⟨hred, ?_⟩
  rw [hred]
  exact mapError_ok_iff _ _ ()

/-- Witness for C5 at a concrete adapter over `ZMod 2` with a trivial inner
scheme, `n = m = 1`, `values = [0, 1]`, `query = [1]`. -/
theorem verify_evaluation_spec_witness :
    (([(0 : ZMod 2), 1]).length = 2 ^ 1 ∧ (1 : Nat) ≤ 63) ∧
    (BatchPCS.verify_evaluation
      (⟨⟨2, fun st _ _ _ => (st, .ok ()), fun st _ _ _ _ => (st, .ok ())⟩,
        1, 1, 0⟩ : BatchPCS (ZMod 2) Nat Unit Unit Unit Unit)
      (fun st => (1, st + 1)) 0 () [1] ⟨()⟩ [0, 1]).2 = .ok () :=
  ⟨⟨by decide, by decide⟩, by
    rw [(verify_evaluation_spec
      (⟨⟨2, fun st _ _ _ => (st, .ok ()), fun st _ _ _ _ => (st, .ok ())⟩,
        1, 1, 0⟩ : BatchPCS (ZMod 2) Nat Unit Unit Unit Unit)
      (fun st => (1, st + 1)) 0 () [1] ⟨()⟩ [0, 1] (by decide) (by decide)).1]
    decide⟩

/-- Counterexample to C6 as stated: with a trivial inner scheme that accepts
everything, `verify_evaluation` with an empty query against `n = 1` returns
`Ok` — it performs no query-length check, so it does not return
`IncorrectQuerySize` when `|query| ≠ n`. -/
theorem verify_no_query_size_check_counterexample :
    (([] : List (ZMod 2)).length ≠ 1) ∧
    (BatchPCS.verify_evaluation
      (⟨⟨2, fun st _ _ _ => (st, .ok ()), fun st _ _ _ _ => (st, .ok ())⟩,
        1, 1, 0⟩ : BatchPCS (ZMod 2) Nat Unit Unit Unit Unit)
      (fun st => (0, st + 1)) 0 () [] ⟨()⟩ [0, 0]).2 = .ok () := by
  constructor
  · decide
  · decide

/-- Claim C6 (amended): `prove_evaluation` returns
`Polynomial(IncorrectQuerySize { expected: n })` iff the query's length
differs from `n`; `verify_evaluation` performs no query-length check at all —
with a well-formed claimed-values list it never returns `IncorrectQuerySize`,
whatever the query's length, delegating to the inner PCS instead. -/
theorem query_size_check {σ Commitment Committed Pf ε : Type}
    (pcs : BatchPCS F σ Commitment Committed Pf ε) (sample : σ → F × σ) (s : σ)
    (committed : Committed) (c : Commitment)
    (polys : List (MultilinearExtension F)) (query query2 : List F)
    (pf : BatchProof Pf) (values : List F)
    (hv : values.length = 2 ^ pcs.log_num_polys) (hm : pcs.log_num_polys ≤ 63) :
    (query.length ≠ pcs.n_vars →
      (pcs.prove_evaluation sample s committed polys query).2 =
        .error (.Polynomial (.IncorrectQuerySize pcs.n_vars))) ∧
    (query.length = pcs.n_vars → ∀ e,
      (pcs.prove_evaluation sample s committed polys query).2 ≠
        .error (.Polynomial (.IncorrectQuerySize e))) ∧
    (∀ e, (pcs.verify_evaluation sample s c query2 pf values).2 ≠
      .error (.Polynomial (.IncorrectQuerySize e))) := by
  refine ⟨fun h => ?_, fun h e => ?_, fun e => ?_⟩
  · rw [BatchPCS.prove_evaluation, if_pos h]
  · rw [prove_evaluation_eq pcs sample s committed polys query h]
    cases hmerge : merge_polynomials (ε := ε) pcs.logW polys with
    | error me =>
      rcases merge_polynomials_error_shape pcs.logW polys me hmerge with
        rfl | rfl | rfl <;> simp
    | ok merged =>
      cases hinner : (pcs.inner.prove_evaluation
          (sample_vec sample s pcs.log_num_polys).2 committed [merged]
          (query ++ (sample_vec sample s pcs.log_num_polys).1)).2 with
      | error ie => simp [hinner, Except.mapError, Except.map]
      | ok pfi => simp [hinner, Except.mapError, Except.map]
  · rw [verify_evaluation_reduction pcs sample s c query2 pf values hv hm]
    cases hinner : (pcs.inner.verify_evaluation
        (sample_vec sample s pcs.log_num_polys).2
        c (query2 ++ (sample_vec sample s pcs.log_num_polys).1) pf.inner
        [evalSum ⟨pcs.log_num_polys, values⟩
          (sample_vec sample s pcs.log_num_polys).1]).2 with
    | error ie => simp [hinner, Except.mapError]
    | ok u => simp [hinner, Except.mapError]

/-- Witness for the amended C6 at a concrete adapter over `ZMod 2`: a short
query makes `prove_evaluation` fail with `IncorrectQuerySize { expected: 1 }`.
-/
theorem query_size_check_witness :
    (([(0 : ZMod 2), 1]).length = 2 ^ 1 ∧ ([] : List (ZMod 2)).length ≠ 1) ∧
    (BatchPCS.prove_evaluation
      (⟨⟨2, fun st _ _ _ => (st, .ok ()), fun st _ _ _ _ => (st, .ok ())⟩,
        1, 1, 0⟩ : BatchPCS (ZMod 2) Nat Unit Unit Unit Unit)
      (fun st => (0, st + 1)) 0 () [] ([] : List (ZMod 2))).2 =
      .error (.Polynomial (.IncorrectQuerySize 1)) :=
  ⟨⟨by decide, by decide⟩,
    (query_size_check
      (⟨⟨2, fun st _ _ _ => (st, .ok ()), fun st _ _ _ _ => (st, .ok ())⟩,
        1, 1, 0⟩ : BatchPCS (ZMod 2) Nat Unit Unit Unit Unit)
      (fun st => (0, st + 1)) 0 () () [] [] [] ⟨()⟩ [0, 1] (by decide)
      (by decide)).1 (by decide)⟩

/-- Claim C10: in `prove_evaluation` the `m` mixing challenges are drawn before
the batch is validated; with a length-`n` query and an invalid batch the call
returns `NumPolys` or `NumVars` with the challenger already advanced by `m`
samples. -/
theorem prove_error_after_sampling {σ Commitment Committed Pf ε : Type}
    (pcs : BatchPCS F σ Commitment Committed Pf ε) (sample : σ → F × σ) (s : σ)
    (committed : Committed) (polys : List (MultilinearExtension F))
    (query : List F) (hq : query.length = pcs.n_vars)
    (hbad : polys.length = 0 ∨ is_power_of_two polys.length = false ∨
      ∃ p ∈ polys, p.mu ≠ (polys.headD ⟨0, []⟩).mu) :
    (pcs.prove_evaluation sample s committed polys query).1 =
      (sample_vec sample s pcs.log_num_polys).2 ∧
    ((pcs.prove_evaluation sample s committed polys query).2 =
        .error .NumPolys ∨
      (pcs.prove_evaluation sample s committed polys query).2 =
        .error .NumVars) := by
  have hmerge : merge_polynomials (ε := ε) pcs.logW polys = .error .NumPolys ∨
      merge_polynomials (ε := ε) pcs.logW polys = .error .NumVars := by
    by_cases hc : polys.length = 0 ∨ is_power_of_two polys.length = false
    · exact .inl (merge_polynomials_numpolys pcs.logW polys hc)
    · push_neg at hc
      have hp2 : is_power_of_two polys.length = true := by
        rcases hb : is_power_of_two polys.length with _ | _
        · exact absurd hb hc.2
        · rfl
      have h3 : ∃ p ∈ polys, p.mu ≠ (polys.headD ⟨0, []⟩).mu := by
        rcases hbad with h | h | h
        · exact absurd h hc.1
        · exact absurd h (by simp [hp2])
        · exact h
      exact .inr (merge_polynomials_numvars pcs.logW polys hc.1 hp2 h3)
  rcases hmerge with h | h
  · rw [prove_evaluation_eq pcs sample s committed polys query hq, h]
    exact ⟨rfl, .inl rfl⟩
  · rw [prove_evaluation_eq pcs sample s committed polys query hq, h]
    exact ⟨rfl, .inr rfl⟩

/-- Witness for C10: the empty batch against a length-1 query; the challenger
state (a counter here) ends at 1, advanced by `m = 1` sample. -/
theorem prove_error_after_sampling_witness :
    (([(0 : ZMod 2)]).length = 1 ∧
      ([] : List (MultilinearExtension (ZMod 2))).length = 0) ∧
    ((BatchPCS.prove_evaluation
        (⟨⟨2, fun st _ _ _ => (st, .ok ()), fun st _ _ _ _ => (st, .ok ())⟩,
          1, 1, 0⟩ : BatchPCS (ZMod 2) Nat Unit Unit Unit Unit)
        (fun st => (0, st + 1)) 0 () [] [0]).1 =
      (sample_vec (fun st : Nat => ((0 : ZMod 2), st + 1)) 0 1).2 ∧
      ((BatchPCS.prove_evaluation
        (⟨⟨2, fun st _ _ _ => (st, .ok ()), fun st _ _ _ _ => (st, .ok ())⟩,
          1, 1, 0⟩ : BatchPCS (ZMod 2) Nat Unit Unit Unit Unit)
        (fun st => (0, st + 1)) 0 () [] [0]).2 = .error .NumPolys ∨
      (BatchPCS.prove_evaluation
        (⟨⟨2, fun st _ _ _ => (st, .ok ()), fun st _ _ _ _ => (st, .ok ())⟩,
          1, 1, 0⟩ : BatchPCS (ZMod 2) Nat Unit Unit Unit Unit)
        (fun st => (0, st + 1)) 0 () [] [0]).2 = .error .NumVars)) :=
  ⟨⟨by decide, by decide⟩,
    prove_error_after_sampling
      (⟨⟨2, fun st _ _ _ => (st, .ok ()), fun st _ _ _ _ => (st, .ok ())⟩,
        1, 1, 0⟩ : BatchPCS (ZMod 2) Nat Unit Unit Unit Unit)
      (fun st => (0, st + 1)) 0 () [] [0] (by decide) (.inl (by decide))⟩

/-- Claim C8: `merge_polynomials` fails with `NumPolys` iff the batch is empty
or its size is not a power of two; given a nonzero power-of-two batch it fails
with `NumVars` iff some polynomial's variable count differs from the first's;
and on a well-formed batch (`2^m` polynomials, all of `n ≥ log2(W)` variables
with `2^n` stored scalars) the `from_values` call cannot hit
`PowerOfTwoLengthRequired` and merging succeeds with the concatenation. -/
theorem merge_polynomials_shape {ε : Type} (logW : Nat)
    (polys : List (MultilinearExtension F)) :
    (merge_polynomials (ε := ε) logW polys = .error .NumPolys ↔
      polys.length = 0 ∨ is_power_of_two polys.length = false) ∧
    (polys.length ≠ 0 → is_power_of_two polys.length = true →
      (merge_polynomials (ε := ε) logW polys = .error .NumVars ↔
        ∃ p ∈ polys, p.mu ≠ (polys.headD ⟨0, []⟩).mu)) ∧
    (∀ n m, polys.length = 2 ^ m → (∀ p ∈ polys, p.mu = n) →
      (∀ p ∈ polys, p.evals.length = 2 ^ n) → logW ≤ n →
      merge_polynomials (ε := ε) logW polys =
        .ok ⟨n + m, (polys.map (·.evals)).flatten⟩) := by
  refine ⟨⟨fun h => ?_, merge_polynomials_numpolys logW polys⟩,
    fun h1 h2 => ⟨fun h => ?_, merge_polynomials_numvars logW polys h1 h2⟩,
    fun n m hlen hmu hev hw => merge_polynomials_ok logW n m polys hlen hmu hev hw⟩
  · by_cases hc : polys.length = 0 ∨ is_power_of_two polys.length = false
    · exact hc
    · push_neg at hc
      exact absurd h (merge_polynomials_ne_numpolys logW polys hc.1
        (by rcases hb : is_power_of_two polys.length with _ | _
            · exact absurd hb hc.2
            · rfl))
  · by_cases hc : ∃ p ∈ polys, p.mu ≠ (polys.headD ⟨0, []⟩).mu
    · exact hc
    · push_neg at hc
      exact absurd h (merge_polynomials_ne_numvars logW polys h1 h2 hc)

/-- Witness for C8: merging two well-formed 1-variable MLEs over `ZMod 5`
concatenates their evaluations. -/
theorem merge_polynomials_shape_witness :
    merge_polynomials (ε := Unit) 0
      [(⟨1, [1, 2]⟩ : MultilinearExtension (ZMod 5)), ⟨1, [3, 4]⟩] =
      .ok ⟨1 + 1, (([(⟨1, [1, 2]⟩ : MultilinearExtension (ZMod 5)),
        ⟨1, [3, 4]⟩]).map (·.evals)).flatten⟩ :=
  (merge_polynomials_shape 0 _).2.2 1 1 (by decide) (by decide) (by decide)
    (by decide)

/-- Claim C4: for any partition `(k_1, …, k_s)` of `μ` into positive parts,
assigning the highest `k_s`, then `k_{s-1}`, …, then `k_2` variables via
`evaluate_partial_high` and finally evaluating the remaining `k_1` low
components returns `p.evaluate q` (the `PE = P` instantiation used by the
source's own split-evaluation test; `logW ≤ k_1` keeps every intermediate
result representable). -/
theorem split_evaluation (logW : Nat) (p : MultilinearExtension F) (q : List F)
    (splits : List Nat) (hne : splits ≠ []) (_hpos : ∀ k ∈ splits, 0 < k)
    (hsum : splits.sum = p.mu) (hq : q.length = p.mu)
    (hev : p.evals.length = 2 ^ p.mu) (h63 : p.mu ≤ 63)
    (hw : logW ≤ splits.headD 0) :
    apply_splits_high logW p q ((splits.drop 1).reverse) = p.evaluate q := by
  have hsum' : ((splits.drop 1).reverse).sum + logW ≤ q.length := by
    cases splits with
    | nil => exact absurd rfl hne
    | cons k₁ rest =>
      simp only [List.headD_cons] at hw
      simp only [List.sum_cons] at hsum
      rw [List.drop_one, List.tail_cons, List.sum_reverse, hq]
      omega
  rw [apply_splits_high_ok logW ((splits.drop 1).reverse) p q hq.symm hev
      (by omega) hsum',
    evaluate_ok p q hq.symm (by omega) hev]

/-- Witness for C4: the 2-variable MLE over `ZMod 5` with values `[1,2,3,4]`,
query `[2,3]`, partition `(1,1)`. -/
theorem split_evaluation_witness :
    (([1, 1] : List Nat).sum = (⟨2, [1, 2, 3, 4]⟩ :
      MultilinearExtension (ZMod 5)).mu) ∧
    apply_splits_high 0 (⟨2, [1, 2, 3, 4]⟩ : MultilinearExtension (ZMod 5))
      [2, 3] ((([1, 1] : List Nat).drop 1).reverse) =
      (⟨2, [1, 2, 3, 4]⟩ : MultilinearExtension (ZMod 5)).evaluate [2, 3] :=
  ⟨by decide, split_evaluation 0 _ _ [1, 1] (by decide) (by decide) (by decide)
    (by decide) (by decide) (by decide) (by decide)⟩

/-- Counterexample to C7 as stated: at `μ = 1`, `k = 1`, `PE::LOG_WIDTH = 1`
(so `2^(μ-k) < WIDTH(PE)`), `evaluate_partial_low` fails with
`ArgumentRangeError` (raised by `zeros`), not with `IncorrectQuerySize` as the
claim asserts for both partial evaluations. -/
theorem partial_low_width_error_counterexample :
    MultilinearExtension.evaluate_partial_low 0 1
        (⟨1, [0, 0]⟩ : MultilinearExtension (ZMod 2)) [0] =
      .error (.ArgumentRangeError "n_vars" 1 32) ∧
    MultilinearExtension.evaluate_partial_low 0 1
        (⟨1, [0, 0]⟩ : MultilinearExtension (ZMod 2)) [0] ≠
      .error (.IncorrectQuerySize 1) := by
  decide

/-- Claim C7 (amended): when `k ≤ μ` and `2^(μ-k) < WIDTH(PE)`, both partial
evaluations fail, but only `evaluate_partial_high` surfaces
`IncorrectQuerySize` with `expected = μ`; `evaluate_partial_low` surfaces
`ArgumentRangeError { arg: "n_vars", range: log2(WIDTH(PE))..32 }`, raised by
the `zeros` constructor for its output polynomial. -/
theorem partial_width_violation (logW logWPE : Nat) (p : MultilinearExtension F)
    (q : List F) (hk : q.length ≤ p.mu)
    (hW : 2 ^ (p.mu - q.length) < 2 ^ logWPE) :
    p.evaluate_partial_high logW logWPE q = .error (.IncorrectQuerySize p.mu) ∧
    p.evaluate_partial_low logW logWPE q =
      .error (.ArgumentRangeError "n_vars" logWPE 32) := by
  constructor
  · rw [MultilinearExtension.evaluate_partial_high, if_neg (by omega), if_pos hW]
  · rw [MultilinearExtension.evaluate_partial_low, if_neg (by omega)]
    have hz : MultilinearExtension.zeros (F := F) logWPE (p.mu - q.length) =
        .error (.ArgumentRangeError "n_vars" logWPE 32) := by
      rw [MultilinearExtension.zeros,
        if_pos ((Nat.pow_lt_pow_iff_right (by norm_num)).mp hW)]
    rw [hz]
    rfl

/-- Witness for the amended C7 at `μ = 1`, `k = 1`, `PE::LOG_WIDTH = 1` over
`ZMod 2`. -/
theorem partial_width_violation_witness :
    (([(0 : ZMod 2)]).length ≤
        (⟨1, [0, 0]⟩ : MultilinearExtension (ZMod 2)).mu ∧
      2 ^ ((⟨1, [0, 0]⟩ : MultilinearExtension (ZMod 2)).mu -
        ([(0 : ZMod 2)]).length) < 2 ^ 1) ∧
    ((⟨1, [0, 0]⟩ : MultilinearExtension (ZMod 2)).evaluate_partial_high 0 1
        [0] = .error (.IncorrectQuerySize 1) ∧
      (⟨1, [0, 0]⟩ : MultilinearExtension (ZMod 2)).evaluate_partial_low 0 1
        [0] = .error (.ArgumentRangeError "n_vars" 1 32)) :=
  ⟨⟨by decide, by decide⟩,
    partial_width_violation 0 1 _ [0] (by decide) (by decide)⟩

/-- Claim C1: merging a well-formed batch of `2^m` MLEs of `n` variables
succeeds with an `(n+m)`-variable MLE whose evaluation at `r ‖ r'` is
`∑_u eq(r', u) · polys[u].evaluate(r)` (little-endian concatenation,
`index = u · 2^n + v`). -/
theorem merge_evaluate_identity {ε : Type} (logW n m : Nat)
    (polys : List (MultilinearExtension F)) (r r' : List F)
    (hlen : polys.length = 2 ^ m) (hmu : ∀ p ∈ polys, p.mu = n)
    (hev : ∀ p ∈ polys, p.evals.length = 2 ^ n) (hw : logW ≤ n)
    (h63 : n + m ≤ 63) (hr : r.length = n) (hr' : r'.length = m) :
    ∃ T, merge_polynomials (ε := ε) logW polys = .ok T ∧ T.mu = n + m ∧
      (∀ u < 2 ^ m, (polys.getD u ⟨0, []⟩).evaluate r =
        .ok (evalSum (polys.getD u ⟨0, []⟩) r)) ∧
      T.evaluate (r ++ r') =
        .ok (∑ u ∈ Finset.range (2 ^ m),
          eq_formula r' u * evalSum (polys.getD u ⟨0, []⟩) r) := by
  subst hr
  subst hr'
  have hflat : ∀ l ∈ polys.map (·.evals), l.length = 2 ^ r.length := by
    intro l hl
    rcases List.mem_map.mp hl with ⟨p, hp, rfl⟩
    exact hev p hp
  have hflatlen : ((polys.map (·.evals)).flatten).length =
      2 ^ (r.length + r'.length) := by
    rw [flatten_length_of_uniform _ _ hflat, List.length_map, hlen, pow_add]
    ring
  refine ⟨⟨r.length + r'.length, (polys.map (·.evals)).flatten⟩,
    merge_polynomials_ok logW r.length r'.length polys hlen hmu hev hw, rfl,
    ?_, ?_⟩
  · intro u hu
    have hu' : u < polys.length := by rw [hlen]; exact hu
    have hmem : polys.getD u ⟨0, []⟩ ∈ polys := by
      rw [List.getD_eq_getElem _ _ hu']
      exact List.getElem_mem hu'
    exact evaluate_ok _ _ (hmu _ hmem) (by omega)
      (by rw [hev _ hmem, hmu _ hmem])
  · rw [evaluate_ok _ _ (List.length_append r r').symm
      (by rw [List.length_append]; exact h63) hflatlen]
    congr 1
    rw [evalSum, List.length_append,
      show 2 ^ (r.length + r'.length) = 2 ^ r'.length * 2 ^ r.length by
        rw [pow_add]; ring,
      sum_range_mul_eq]
    refine Finset.sum_congr rfl fun u hu => ?_
    have hu' : u < polys.length := by rw [hlen]; exact Finset.mem_range.mp hu
    have hmap : (polys.map (·.evals)).getD u [] = (polys.getD u ⟨0, []⟩).evals := by
      rw [List.getD_eq_getElem _ _ (by rw [List.length_map]; exact hu'),
        List.getElem_map, List.getD_eq_getElem _ _ hu']
    rw [eq_formula_eq_basis_prod, evalSum, Finset.mul_sum]
    refine Finset.sum_congr rfl fun v hv => ?_
    have hv' : v < 2 ^ r.length := Finset.mem_range.mp hv
    rw [basis_prod_mul_add r r' u v hv',
      flatten_getD_uniform (2 ^ r.length) _ u v hflat hv'
        (by rw [List.length_map]; exact hu'),
      hmap]
    ring

/-- Witness for C1 at a concrete batch of two 1-variable MLEs over `ZMod 5`
with query `r = [2]`, mixing point `r' = [3]`. -/
theorem merge_evaluate_identity_witness :
    (([(⟨1, [1, 2]⟩ : MultilinearExtension (ZMod 5)), ⟨1, [3, 4]⟩]).length =
      2 ^ 1 ∧ 1 + 1 ≤ 63 ∧ ([(2 : ZMod 5)]).length = 1) ∧
    ∃ T, merge_polynomials (ε := Unit) 0
        [(⟨1, [1, 2]⟩ : MultilinearExtension (ZMod 5)), ⟨1, [3, 4]⟩] = .ok T ∧
      T.mu = 1 + 1 ∧
      (∀ u < 2 ^ 1,
        (([(⟨1, [1, 2]⟩ : MultilinearExtension (ZMod 5)),
          ⟨1, [3, 4]⟩]).getD u ⟨0, []⟩).evaluate [2] =
        .ok (evalSum (([(⟨1, [1, 2]⟩ : MultilinearExtension (ZMod 5)),
          ⟨1, [3, 4]⟩]).getD u ⟨0, []⟩) [2])) ∧
      T.evaluate ([2] ++ [3]) =
        .ok (∑ u ∈ Finset.range (2 ^ 1),
          eq_formula [3] u * evalSum (([(⟨1, [1, 2]⟩ :
            MultilinearExtension (ZMod 5)), ⟨1, [3, 4]⟩]).getD u ⟨0, []⟩) [2]) :=
  ⟨⟨by decide, by decide, by decide⟩,
    merge_evaluate_identity 0 1 1 [⟨1, [1, 2]⟩, ⟨1, [3, 4]⟩] [2] [3] (by decide)
      (by decide) (by decide) (by decide) (by decide) (by decide) (by decide)⟩

/-- Claim C2: for every query `q` whose expansion length `2^k` fits the
platform's index range, the iterative tensor expansion agrees with the naive
pointwise definition — `expand_query q = expand_query_naive q`, both succeed
with the length-`2^k` expansion, and entry `i` is
`∏_j (bit_j(i) * q_j + (1 - bit_j(i)) * (1 - q_j))`. -/
theorem expand_query_iterative_eq_naive (q : List F) (h : q.length ≤ 63) :
    expand_query q = expand_query_naive q ∧
    expand_query q = .ok (expand_query_core q) ∧
    (expand_query_core q).length = 2 ^ q.length ∧
    ∀ i < 2 ^ q.length, (expand_query_core q).getD i 0 = eq_formula q i := by
  have hguard := (pow_le_usizeMax_iff q.length).mpr h
  have hcore : expand_query q = .ok (expand_query_core q) := by
    rw [expand_query, if_pos hguard]
  have hlist : expand_query_core q = (List.range (2 ^ q.length)).map (eval_basis q) := by
    apply List.ext_getElem
    · rw [expand_query_core_length, List.length_map, List.length_range]
    · intro i h1 h2
      have hi : i < 2 ^ q.length := by
        rw [expand_query_core_length] at h1
        exact h1
      rw [List.getElem_map, List.getElem_range, ← List.getD_eq_getElem _ 0 h1,
        expand_query_core_getD q i hi, eval_basis_eq_basis_prod]
  refine ⟨?_, hcore, expand_query_core_length q, fun i hi => ?_⟩
  · rw [hcore, expand_query_naive, if_pos hguard, hlist]
  · rw [expand_query_core_getD q i hi, eq_formula_eq_basis_prod]

/-- Witness for C2 at the concrete query `[1, 0]` over `ZMod 2`. -/
theorem expand_query_iterative_eq_naive_witness :
    ([(1 : ZMod 2), 0].length ≤ 63) ∧
    expand_query [(1 : ZMod 2), 0] = expand_query_naive [(1 : ZMod 2), 0] :=
  ⟨by decide, (expand_query_iterative_eq_naive [(1 : ZMod 2), 0] (by decide)).1⟩

/-- Claim C3: an MLE built by `from_values` from `2^μ` scalars evaluates at the
little-endian binary point of any hypercube index `i` to the stored scalar
`v[i]` (the lift `F ↪ FE` is the identity in this model). -/
theorem evaluate_on_binary_point (logW μ : Nat) (v : List F) (i : Nat)
    (hv : v.length = 2 ^ μ) (hw : logW ≤ μ) (hμ : μ ≤ 63) (hi : i < 2 ^ μ) :
    ∃ p, MultilinearExtension.from_values logW v = .ok p ∧
      p.evaluate (binary μ i) = .ok (v.getD i 0) := by
  refine ⟨⟨μ, v⟩, from_values_ok logW μ v hv hw, ?_⟩
  rw [evaluate_ok ⟨μ, v⟩ (binary μ i) (by rw [binary_length])
    (by rw [binary_length]; exact hμ) (by exact hv)]
  congr 1
  rw [evalSum, binary_length]
  have hterm : ∀ t ∈ Finset.range (2 ^ μ),
      basis_prod (binary (F := F) μ i) t * v.getD t 0 =
        if t = i then v.getD t 0 else 0 := by
    intro t ht
    rw [basis_prod_binary μ i t hi (Finset.mem_range.mp ht)]
    by_cases he : t = i <;> simp [he]
  rw [Finset.sum_congr rfl hterm, Finset.sum_ite_eq' (Finset.range (2 ^ μ)) i,
    if_pos (Finset.mem_range.mpr hi)]

/-- Witness for C3: the 2-variable MLE over `ZMod 5` with values `[1,2,3,4]`
evaluated at the binary point of index 3. -/
theorem evaluate_on_binary_point_witness :
    (([(1 : ZMod 5), 2, 3, 4] : List (ZMod 5)).length = 2 ^ 2 ∧ 0 ≤ 2 ∧
      2 ≤ 63 ∧ 3 < 2 ^ 2) ∧
    ∃ p, MultilinearExtension.from_values 0 [(1 : ZMod 5), 2, 3, 4] = .ok p ∧
      p.evaluate (binary 2 3) = .ok (([(1 : ZMod 5), 2, 3, 4]).getD 3 0) :=
  ⟨⟨by decide, by decide, by decide, by decide⟩,
    evaluate_on_binary_point 0 2 [(1 : ZMod 5), 2, 3, 4] 3 (by decide) (by decide)
      (by decide) (by decide)⟩

end Binius
